import Mathlib

/-!
Verification of the PDF page-splitting module (`pdf_splitting.py`).

Strings are modelled as `List Char`; the Python string operations used by the
source (`str.split`, `str.join`, `str.strip`) are embedded as `pySplit`,
`pyJoin`, `pyStrip`.  Object bytes are `List Nat`.  The storage side effects of
`split_upload_pages` (the metadata `put_object`, each page `upload_fileobj`,
each post-processing hook call) are recorded in an explicit event trace.
-/

abbrev Str := List Char

/-- Shorthand turning a Lean string literal into its character list. -/
def str (s : String) : Str := s.data

/-- Python `s.split(c)` for a one-character separator: splits at every
occurrence of `c`, keeping empty fragments; `''.split(c) == ['']`. -/
def pySplit (c : Char) : Str → List Str
  | [] => [[]]
  | x :: xs =>
    if x = c then [] :: pySplit c xs
    else
      match pySplit c xs with
      | s :: rest => (x :: s) :: rest
      | [] => [[x]]

/-- Python `c.join(parts)` for a one-character separator. -/
def pyJoin (c : Char) : List Str → Str
  | [] => []
  | [s] => s
  | s :: rest => s ++ c :: pyJoin c rest

/-- Python `s.strip(c)` for a one-character strip set: removes every leading
and every trailing occurrence of `c`. -/
def pyStrip (c : Char) (l : Str) : Str :=
  ((l.dropWhile (· == c)).reverse.dropWhile (· == c)).reverse

/-- The trailing half of `pyStrip`: removes every trailing occurrence of `c`.
`pyStrip c l` is definitionally `pyRStrip c (l.dropWhile (· == c))`. -/
def pyRStrip (c : Char) (l : Str) : Str :=
  (l.reverse.dropWhile (· == c)).reverse

/-- An S3 object locator, as the `S3Location` dict of the source:
`{"S3Bucket": ..., "S3ObjectName": ...}`. -/
structure S3Location where
  S3Bucket : Str
  S3ObjectName : Str
deriving DecidableEq

/-- `S3InputObject._OUTPUT_PREFIX = 'in_progress'`. -/
def OUTPUT_PREFIX : Str := str "in_progress"

/-- The content type that selects the multi-page (PDF) branch. -/
def pdfContentType : Str := str "application/pdf"

/-- `S3InputObject.get_output_path(output_bucket, prefix, subpath, suffix)`:
`{"S3Bucket": output_bucket, "S3ObjectName":
  '/'.join([s for s in [prefix, subpath, suffix] if s is not None and s != '']).strip('/')}`.
`none` models Python `None`. -/
def get_output_path (output_bucket : Str) (pfx sub sfx : Option Str) : S3Location :=
  { S3Bucket := output_bucket,
    S3ObjectName :=
      pyStrip '/' (pyJoin '/' (([pfx, sub, sfx].filterMap id).filter (fun s => !(s == [])))) }

/-- The error raised when a page-image key has no `"pages"` segment (the
spec's `MalformedPathError`; the Python code surfaces `list.index`'s
`ValueError` there). -/
inductive SplitError where
  | MalformedPathError
deriving DecidableEq

/-- The `"pages"` path segment that `get_output_path_from_page_image_path`
searches for. -/
def pagesSeg : Str := str "pages"

/-- `S3InputObject.get_output_path_from_page_image_path(s3_page_image_location, suffix='')`:
splits the key on `'/'`, keeps the segments strictly before the first
`'pages'` segment, rejoins them, and feeds the result to `get_output_path`
as the prefix (no subpath).  Fails when no `'pages'` segment exists. -/
def get_output_path_from_page_image_path (loc : S3Location) (sfx : Str := []) :
    Except SplitError S3Location :=
  let loc_parts := pySplit '/' loc.S3ObjectName
  if pagesSeg ∈ loc_parts then
    Except.ok (get_output_path loc.S3Bucket
      (some (pyJoin '/' (loc_parts.takeWhile (fun s => !(s == pagesSeg))))) none (some sfx))
  else
    Except.error SplitError.MalformedPathError

instance : DecidableEq (Except SplitError S3Location) := fun a b =>
  match a, b with
  | Except.ok x, Except.ok y =>
    match decEq x y with
    | isTrue h => isTrue (by rw [h])
    | isFalse h => isFalse (fun he => h (Except.ok.inj he))
  | Except.error x, Except.error y =>
    match decEq x y with
    | isTrue h => isTrue (by rw [h])
    | isFalse h => isFalse (fun he => h (Except.error.inj he))
  | Except.ok _, Except.error _ => isFalse (fun he => Except.noConfusion he)
  | Except.error _, Except.ok _ => isFalse (fun he => Except.noConfusion he)

/-- The `"images"` path segment of the per-page suffix convention. -/
def imagesSeg : Str := str "images"

/-- The spec's description of `build_path`, written independently of the
source: join the components among `[prefix, subpath, suffix]` that are
neither null nor the empty string with `'/'`, strip any leading or trailing
separator from the result, and keep the bucket verbatim. -/
def build_path_spec (output_bucket : Str) (pfx sub sfx : Option Str) : S3Location :=
  let comps : List Str :=
    [pfx, sub, sfx].foldr
      (fun o acc =>
        match o with
        | none => acc
        | some s => if s = [] then acc else s :: acc) []
  { S3Bucket := output_bucket,
    S3ObjectName := pyRStrip '/' ((List.intercalate ['/'] comps).dropWhile (· == '/')) }

/-- The substring of a key strictly after its last `'.'`; the whole key when
it contains no `'.'` at all. -/
def afterLastDot (key : Str) : Str :=
  (key.reverse.takeWhile (fun c => !(c == '.'))).reverse

/-- `re.sub('[\W_]+', '', text)`: keep exactly the alphanumeric characters. -/
def strippedText (t : Str) : Str := t.filter (fun c => c.isAlphanum)

/-- The classifier's two verdicts. -/
inductive PageType where
  | other
  | single_image
deriving DecidableEq

/-- One image embedded in a PDF page, as `fitz` exposes it: the raw encoded
bytes (`base_image["image"]`) and its native extension (`base_image["ext"]`). -/
structure EmbImage where
  image : List Nat
  ext : Str
deriving DecidableEq

/-- One page of a decoded PDF: its extracted text (`page.get_text()`), its
embedded images (`page.get_images()` joined with `extract_image`), and the
PNG bytes a 2.0x-zoom rasterization of the page produces
(`page.get_pixmap(matrix=_MAT).pil_tobytes('png')`). -/
structure PDFPage where
  text : Str
  images : List EmbImage
  rendered : List Nat
deriving DecidableEq

/-- The per-page classification in `split_upload_pages`:
`'other' if len(re.sub('[\W_]+', '', page.get_text())) > 5 or len(page.get_images()) != 1
 else 'single_image'`. -/
def classify_page (p : PDFPage) : PageType :=
  if (strippedText p.text).length > 5 ∨ p.images.length ≠ 1 then
    PageType.other
  else
    PageType.single_image

/-- The bytes and extension chosen for one PDF page: rasterize to PNG for
`'other'`, extract the first embedded image losslessly for `'single_image'`. -/
def page_image_and_ext (p : PDFPage) : List Nat × Str :=
  match classify_page p with
  | PageType.other => (p.rendered, str "png")
  | PageType.single_image =>
    match p.images with
    | i :: _ => (i.image, i.ext)
    | [] => ([], [])

/-- The metadata dict built in `S3InputObject.__init__` and completed in
`split_upload_pages` (`page_count` starts absent). -/
structure Metadata where
  content_type : Str
  document_location : S3Location
  message_object_id : Option Str
  page_count : Option Nat
deriving DecidableEq

/-- The state of an `S3InputObject` at the start of `split_upload_pages`:
the source locator and job id given to `__init__`, the output bucket, the
content type `head_object` reported, and the source bytes `_lazy_download`
fetched. -/
structure S3InputObject where
  s3_document_file : S3Location
  message_object_id : Option Str
  output_bucket : Str
  content_type : Str
  body : List Nat
deriving DecidableEq

/-- `self._is_pdf`: the content type equals `'application/pdf'`. -/
def is_pdf (o : S3InputObject) : Bool := o.content_type == pdfContentType

/-- `self._metadata` as built in `__init__`, before `page_count` is set. -/
def metadata_init (o : S3InputObject) : Metadata :=
  { content_type := o.content_type
    document_location := o.s3_document_file
    message_object_id := o.message_object_id
    page_count := none }

/-- `self._get_output_path(suffix=...)`: `get_output_path` with this object's
bucket, the default prefix and the job id as subpath. -/
def get_output_path_of (o : S3InputObject) (sfx : Str) : S3Location :=
  get_output_path o.output_bucket (some OUTPUT_PREFIX) o.message_object_id (some sfx)

/-- The destination of `_save_metadata`: the base output path's key joined
with `'metadata.json'` by a plain `'/'.join`. -/
def save_metadata_loc (o : S3InputObject) : S3Location :=
  let op := get_output_path_of o []
  { S3Bucket := op.S3Bucket, S3ObjectName := op.S3ObjectName ++ '/' :: str "metadata.json" }

/-- One returned `Page` namedtuple:
`Page(s3_document_file, number, image_obj, image_ext, s3_page_file, post_processing_result)`
(the in-memory image is kept as its source bytes). -/
structure Page where
  s3_document_file : S3Location
  number : Nat
  image_obj : List Nat
  image_ext : Str
  s3_page_file : S3Location
  post_processing_result : Option Str
deriving DecidableEq

/-- One observable storage side effect of `split_upload_pages`: the metadata
`put_object`, a page-image `upload_fileobj`, or a post-processing hook call. -/
inductive Ev where
  | metaWrite (loc : S3Location) (meta : Metadata)
  | pageWrite (loc : S3Location) (body : List Nat)
  | hookCall (loc : S3Location)
deriving DecidableEq

/-- The metadata writes of a trace, in order, with their destination and the
record written. -/
def evMetaWrites (tr : List Ev) : List (S3Location × Metadata) :=
  tr.filterMap fun e =>
    match e with
    | Ev.metaWrite loc m => some (loc, m)
    | _ => none

/-- The page-image writes of a trace, in order, with their destination and
the bytes written. -/
def evPageWrites (tr : List Ev) : List (S3Location × List Nat) :=
  tr.filterMap fun e =>
    match e with
    | Ev.pageWrite loc b => some (loc, b)
    | _ => none

/-- Decimal rendering of a page number, as the f-string interpolates it. -/
def natStr (n : Nat) : Str := (Nat.repr n).data

/-- Pair each page with its `page.number`: `fitz` numbers the pages of an open
document `0, 1, 2, ...` in iteration order. -/
def numberPages (k : Nat) : List PDFPage → List (Nat × PDFPage)
  | [] => []
  | p :: ps => (k, p) :: numberPages (k + 1) ps

/-- The events an optional hook contributes after one page upload: the code
calls `page_post_process(page_file)` exactly when a hook was supplied. -/
def hookEvs (hook : Option (S3Location → Str)) (pf : S3Location) : List Ev :=
  match hook with
  | some _ => [Ev.hookCall pf]
  | none => []

/-- The loop body of the PDF branch for one page: classify, pick bytes and
extension, build the destination path, upload, run the hook; returns the
`Page` record appended to `pages` and the events this iteration emits. -/
def pageEntry (o : S3InputObject) (hook : Option (S3Location → Str)) (np : Nat × PDFPage) :
    Page × List Ev :=
  let be := page_image_and_ext np.2
  let pf := get_output_path_of o (str "pages/images/" ++ natStr np.1 ++ '.' :: be.2)
  ({ s3_document_file := o.s3_document_file
     number := np.1
     image_obj := be.1
     image_ext := be.2
     s3_page_file := pf
     post_processing_result := hook.map (fun h => h pf) },
   Ev.pageWrite pf be.1 :: hookEvs hook pf)

/-- The destination of the single upload of the standalone (non-PDF) branch:
suffix `'pages/images/0.{ext}'` with the extension taken from the source
key's last `'.'`-separated piece. -/
def standalone_page_loc (o : S3InputObject) : S3Location :=
  get_output_path_of o
    (str "pages/images/0." ++ (pySplit '.' o.s3_document_file.S3ObjectName).getLastD [])

/-- `S3InputObject.split_upload_pages(page_post_process)`: returns the list of
`Page` records and the trace of storage events, in program order.
`fitz_open` stands for `fitz.open("pdf", stream=...)` decoding the cached
bytes into pages. -/
def split_upload_pages (fitz_open : List Nat → List PDFPage)
    (hook : Option (S3Location → Str)) (o : S3InputObject) : List Page × List Ev :=
  if is_pdf o then
    let doc := fitz_open o.body
    let meta := { metadata_init o with page_count := some doc.length }
    let items := (numberPages 0 doc).map (pageEntry o hook)
    (items.map Prod.fst,
     Ev.metaWrite (save_metadata_loc o) meta :: items.flatMap Prod.snd)
  else
    let meta := { metadata_init o with page_count := some 1 }
    let image_ext := (pySplit '.' o.s3_document_file.S3ObjectName).getLastD []
    let pf := standalone_page_loc o
    ([{ s3_document_file := o.s3_document_file
        number := 0
        image_obj := o.body
        image_ext := image_ext
        s3_page_file := pf
        post_processing_result := hook.map (fun h => h pf) }],
     Ev.metaWrite (save_metadata_loc o) meta :: Ev.pageWrite pf o.body :: hookEvs hook pf)

/-- A concrete source locator used to exercise the definitions. -/
def exLoc : S3Location := ⟨str "src-bucket", str "input/doc.pdf"⟩

/-- A concrete splitter state whose source is a PDF. -/
def exObjPdf : S3InputObject :=
  ⟨exLoc, some (str "job1"), str "out-bucket", str "application/pdf", [0, 1]⟩

/-- A concrete splitter state whose source is a standalone JPEG. -/
def exObjImg : S3InputObject :=
  ⟨⟨str "src-bucket", str "input/photo.jpg"⟩, some (str "job1"), str "out-bucket",
    str "image/jpeg", [7, 8, 9]⟩

/-- A concrete page holding a single embedded image and almost no text. -/
def exPage : PDFPage := ⟨str "hi", [⟨[1, 2], str "jpeg"⟩], [3, 4]⟩

/-- A concrete two-page document. -/
def exDoc : List PDFPage := [exPage, ⟨str "lots of text here", [], [5]⟩]

/-! ### Lemmas about the embedded Python string operations -/

theorem pySplit_ne_nil (c : Char) (l : Str) : pySplit c l ≠ [] := by
  cases l with
  | nil => simp [pySplit]
  | cons x xs =>
    by_cases h : x = c
    · simp [pySplit, h]
    · simp only [pySplit, if_neg h]
      cases hxs : pySplit c xs <;> simp

theorem pySplit_exists_cons (c : Char) (l : Str) : ∃ s rest, pySplit c l = s :: rest := by
  cases hs : pySplit c l with
  | nil => exact absurd hs (pySplit_ne_nil c l)
  | cons s rest => exact ⟨s, rest, rfl⟩

theorem pySplit_cons_sep (c : Char) (xs : Str) : pySplit c (c :: xs) = [] :: pySplit c xs := by
  simp [pySplit]

theorem pySplit_cons_ne (c x : Char) (xs : Str) (h : x ≠ c) {s : Str} {rest : List Str}
    (hs : pySplit c xs = s :: rest) : pySplit c (x :: xs) = (x :: s) :: rest := by
  simp [pySplit, if_neg h, hs]

theorem pySplit_append_cons (c : Char) (a b : Str) :
    pySplit c (a ++ c :: b) = pySplit c a ++ pySplit c b := by
  induction a with
  | nil => simp [pySplit]
  | cons x a' ih =>
    by_cases h : x = c
    · subst h
      rw [List.cons_append, pySplit_cons_sep, pySplit_cons_sep, ih, List.cons_append]
    · obtain ⟨s, rest, hs⟩ := pySplit_exists_cons c a'
      have hs2 : pySplit c (a' ++ c :: b) = s :: (rest ++ pySplit c b) := by
        rw [ih, hs, List.cons_append]
      rw [List.cons_append, pySplit_cons_ne c x _ h hs2, pySplit_cons_ne c x a' h hs,
        List.cons_append]

theorem pyJoin_cons_of_ne_nil (c : Char) (s : Str) (ss : List Str) (h : ss ≠ []) :
    pyJoin c (s :: ss) = s ++ c :: pyJoin c ss := by
  cases ss with
  | nil => exact absurd rfl h
  | cons t ts => simp [pyJoin]

theorem pyJoin_pySplit (c : Char) (l : Str) : pyJoin c (pySplit c l) = l := by
  induction l with
  | nil => rfl
  | cons x xs ih =>
    by_cases h : x = c
    · rw [h, pySplit_cons_sep, pyJoin_cons_of_ne_nil c [] _ (pySplit_ne_nil c xs), ih,
        List.nil_append]
    · obtain ⟨s, rest, hs⟩ := pySplit_exists_cons c xs
      rw [hs] at ih
      rw [pySplit_cons_ne c x xs h hs]
      cases rest with
      | nil =>
        simp only [pyJoin] at ih ⊢
        rw [ih]
      | cons r rs =>
        rw [pyJoin_cons_of_ne_nil c (x :: s) _ (by simp)] at *
        rw [pyJoin_cons_of_ne_nil c s _ (by simp)] at ih
        rw [List.cons_append, ih]

theorem pySplit_of_not_mem (c : Char) (l : Str) (h : c ∉ l) : pySplit c l = [l] := by
  induction l with
  | nil => rfl
  | cons x xs ih =>
    have hx : x ≠ c := fun hxc => h (hxc ▸ List.mem_cons_self x xs)
    have hxs : pySplit c xs = [xs] := ih (fun hc => h (List.mem_cons_of_mem x hc))
    rw [pySplit_cons_ne c x xs hx hxs]

theorem takeWhile_middle {α : Type} (p : α → Bool) (xs ys : List α) (a : α)
    (h1 : ∀ x ∈ xs, p x = true) (h2 : p a = false) :
    (xs ++ a :: ys).takeWhile p = xs := by
  induction xs with
  | nil => simp [List.takeWhile_cons, h2]
  | cons x xt ih =>
    have hx := h1 x (List.mem_cons_self x xt)
    rw [List.cons_append, List.takeWhile_cons, if_pos hx,
      ih (fun y hy => h1 y (List.mem_cons_of_mem x hy))]

theorem dropWhile_append_of_mem {α : Type} (p : α → Bool) (a b : List α)
    (h : ∃ x ∈ a, p x = false) :
    (a ++ b).dropWhile p = a.dropWhile p ++ b := by
  rw [List.dropWhile_append]
  have hne : (a.dropWhile p).isEmpty = false := by
    rw [List.isEmpty_eq_false]
    intro hnil
    rcases h with ⟨x, hx, hpx⟩
    have htrue := (List.dropWhile_eq_nil_iff.mp hnil) x hx
    rw [htrue] at hpx
    exact Bool.noConfusion hpx
  rw [hne]
  simp

theorem pyRStrip_append (c : Char) (a b : Str) (h : ∃ x ∈ b, (x == c) = false) :
    pyRStrip c (a ++ b) = a ++ pyRStrip c b := by
  rcases h with ⟨x, hx, hpx⟩
  unfold pyRStrip
  rw [List.reverse_append, dropWhile_append_of_mem _ _ _ ⟨x, List.mem_reverse.mpr hx, hpx⟩,
    List.reverse_append, List.reverse_reverse]

theorem pyStrip_cons_of_ne (c x : Char) (t : Str) (h : (x == c) = false) :
    pyStrip c (x :: t) = pyRStrip c (x :: t) := by
  simp only [pyStrip, pyRStrip, List.dropWhile_cons, h]
  simp

theorem comps_eq (l : List (Option Str)) :
    (l.filterMap id).filter (fun s => !(s == [])) =
      l.foldr (fun o acc =>
        match o with
        | none => acc
        | some s => if s = [] then acc else s :: acc) [] := by
  induction l with
  | nil => rfl
  | cons o t ih =>
    cases o with
    | none => simpa [List.filterMap_cons] using ih
    | some s =>
      have hstep : List.filterMap id (some s :: t) = s :: List.filterMap id t := by simp
      rw [hstep, List.filter_cons]
      by_cases hs : s = []
      · rw [if_neg (by simp [hs]), ih]
        simp [hs]
      · rw [if_pos (by simp [hs]), ih]
        simp [hs]

theorem pyJoin_eq_intercalate (c : Char) (ss : List Str) :
    pyJoin c ss = List.intercalate [c] ss := by
  induction ss with
  | nil => rfl
  | cons s t ih =>
    cases t with
    | nil => simp [pyJoin, List.intercalate, List.intersperse]
    | cons u v =>
      rw [pyJoin_cons_of_ne_nil c s _ (by simp), ih]
      simp [List.intercalate, List.intersperse]

theorem exists_replicate_dropWhile (c : Char) (l : Str) :
    ∃ a, l = List.replicate a c ++ l.dropWhile (· == c) ∧
      (l.dropWhile (· == c)).head? ≠ some c := by
  induction l with
  | nil => exact ⟨0, rfl, by simp⟩
  | cons x t ih =>
    by_cases h : x = c
    · obtain ⟨a, ha, hh⟩ := ih
      refine ⟨a + 1, ?_, ?_⟩
      · rw [List.dropWhile_cons, if_pos (by simp [h]), List.replicate_succ, List.cons_append,
          ← ha, h]
      · rw [List.dropWhile_cons, if_pos (by simp [h])]
        exact hh
    · refine ⟨0, ?_, ?_⟩
      · rw [List.dropWhile_cons, if_neg (by simp [h])]
        rfl
      · rw [List.dropWhile_cons, if_neg (by simp [h])]
        simp [h]

theorem pyStrip_decomp (c : Char) (l : Str) :
    ∃ a d, l = List.replicate a c ++ pyStrip c l ++ List.replicate d c ∧
      (pyStrip c l).head? ≠ some c ∧ (pyStrip c l).getLast? ≠ some c := by
  obtain ⟨a, ha, hh⟩ := exists_replicate_dropWhile c l
  obtain ⟨d, hd, hh2⟩ := exists_replicate_dropWhile c (l.dropWhile (· == c)).reverse
  have hstrip : pyStrip c l = ((l.dropWhile (· == c)).reverse.dropWhile (· == c)).reverse := rfl
  have hm2 : l.dropWhile (· == c) = pyStrip c l ++ List.replicate d c := by
    calc l.dropWhile (· == c)
        = (l.dropWhile (· == c)).reverse.reverse := (List.reverse_reverse _).symm
      _ = (List.replicate d c ++ (l.dropWhile (· == c)).reverse.dropWhile (· == c)).reverse := by
          rw [← hd]
      _ = pyStrip c l ++ List.replicate d c := by
          rw [List.reverse_append, List.reverse_replicate, hstrip]
  refine ⟨a, d, ?_, ?_, ?_⟩
  · rw [List.append_assoc, ← hm2, ← ha]
  · cases hs : pyStrip c l with
    | nil => simp
    | cons y ys =>
      rw [hs] at hm2
      rw [hm2, List.cons_append] at hh
      simpa using hh
  · rw [hstrip, List.getLast?_reverse]
    exact hh2

theorem pySplit_concat_sep (c : Char) (t : Str) :
    pySplit c (t ++ [c]) = pySplit c t ++ [[]] := by
  have h := pySplit_append_cons c t []
  simpa [pySplit] using h

theorem pySplit_concat_ne (c x : Char) (h : x ≠ c) (t : Str) :
    pySplit c (t ++ [x]) =
      (pySplit c t).dropLast ++ [(pySplit c t).getLastD [] ++ [x]] := by
  induction t with
  | nil => simp [pySplit, if_neg h]
  | cons y t' ih =>
    obtain ⟨s, rest, hs⟩ := pySplit_exists_cons c t'
    by_cases hy : y = c
    · rw [hy, List.cons_append, pySplit_cons_sep, pySplit_cons_sep, ih, hs]
      cases rest with
      | nil => simp [List.getLastD]
      | cons r rs => simp [List.getLastD]
    · rw [hs] at ih
      have hlhs : pySplit c (t' ++ [x]) =
          (s :: rest).dropLast ++ [(s :: rest).getLastD [] ++ [x]] := ih
      cases rest with
      | nil =>
        have hform : pySplit c (t' ++ [x]) = [s ++ [x]] := by simpa using hlhs
        rw [List.cons_append, pySplit_cons_ne c y _ hy hform, pySplit_cons_ne c y t' hy hs]
        simp [List.getLastD]
      | cons r rs =>
        have hform : pySplit c (t' ++ [x]) =
            s :: ((r :: rs).dropLast ++ [(r :: rs).getLastD [] ++ [x]]) := by
          simpa [List.getLastD] using hlhs
        rw [List.cons_append, pySplit_cons_ne c y _ hy hform, pySplit_cons_ne c y t' hy hs]
        simp [List.getLastD]

theorem getLastD_pySplit (c : Char) (l : Str) :
    (pySplit c l).getLastD [] = (l.reverse.takeWhile (fun y => !(y == c))).reverse := by
  induction l using List.reverseRecOn with
  | nil => rfl
  | append_singleton t x ih =>
    by_cases h : x = c
    · rw [h, pySplit_concat_sep, List.getLastD_concat, List.reverse_append]
      simp [List.takeWhile_cons]
    · rw [pySplit_concat_ne c x h t, List.getLastD_concat, List.reverse_append, ih]
      simp [List.takeWhile_cons, h]

/-! ### Lemmas about the splitter -/

theorem numberPages_length (k : Nat) (doc : List PDFPage) :
    (numberPages k doc).length = doc.length := by
  induction doc generalizing k with
  | nil => rfl
  | cons p ps ih => simp [numberPages, ih]

theorem numberPages_map_fst (k : Nat) (doc : List PDFPage) :
    (numberPages k doc).map Prod.fst = List.range' k doc.length := by
  induction doc generalizing k with
  | nil => rfl
  | cons p ps ih =>
    rw [numberPages, List.map_cons, ih, List.length_cons, List.range'_succ]

theorem pageEntry_snd_no_meta (o : S3InputObject) (hook : Option (S3Location → Str))
    (np : Nat × PDFPage) : evMetaWrites (pageEntry o hook np).2 = [] := by
  cases hook with
  | none => rfl
  | some h => rfl

theorem evMetaWrites_append (a b : List Ev) :
    evMetaWrites (a ++ b) = evMetaWrites a ++ evMetaWrites b := by
  unfold evMetaWrites
  exact List.filterMap_append a b _

theorem evMetaWrites_pdf_items (o : S3InputObject) (hook : Option (S3Location → Str))
    (k : Nat) (doc : List PDFPage) :
    evMetaWrites (((numberPages k doc).map (pageEntry o hook)).flatMap Prod.snd) = [] := by
  induction doc generalizing k with
  | nil => rfl
  | cons p ps ih =>
    rw [numberPages, List.map_cons, List.flatMap_cons, evMetaWrites_append,
      pageEntry_snd_no_meta, List.nil_append]
    exact ih (k + 1)

theorem split_pages_length_pdf (fitz_open : List Nat → List PDFPage)
    (hook : Option (S3Location → Str)) (o : S3InputObject) (h : is_pdf o = true) :
    (split_upload_pages fitz_open hook o).1.length = (fitz_open o.body).length := by
  simp [split_upload_pages, h, numberPages_length]

theorem split_trace_head (fitz_open : List Nat → List PDFPage)
    (hook : Option (S3Location → Str)) (o : S3InputObject) :
    ∃ m rest, (split_upload_pages fitz_open hook o).2 =
      Ev.metaWrite (save_metadata_loc o) m :: rest ∧
      m.page_count = some (split_upload_pages fitz_open hook o).1.length := by
  cases h : is_pdf o with
  | true =>
    refine ⟨{ metadata_init o with page_count := some (fitz_open o.body).length },
      ((numberPages 0 (fitz_open o.body)).map (pageEntry o hook)).flatMap Prod.snd, ?_, ?_⟩
    · simp [split_upload_pages, h]
    · rw [split_pages_length_pdf fitz_open hook o h]
  | false =>
    refine ⟨{ metadata_init o with page_count := some 1 },
      Ev.pageWrite (standalone_page_loc o) o.body :: hookEvs hook (standalone_page_loc o),
      ?_, ?_⟩
    · simp [split_upload_pages, h]
    · simp [split_upload_pages, h]

/-! ### Claim theorems -/

/-- C2: for every page of a multi-page document, the classifier returns
`single_image` if and only if the page's text with all non-alphanumeric
characters removed has length at most 5 and the page embeds exactly one
image; in every other case it returns `other`. -/
theorem classify_page_single_image_iff (p : PDFPage) :
    (classify_page p = PageType.single_image ↔
      (strippedText p.text).length ≤ 5 ∧ p.images.length = 1) ∧
    (classify_page p = PageType.other ↔
      ¬ ((strippedText p.text).length ≤ 5 ∧ p.images.length = 1)) := by
  by_cases h : (strippedText p.text).length > 5 ∨ p.images.length ≠ 1
  · have hc : classify_page p = PageType.other := by rw [classify_page, if_pos h]
    have hnot : ¬ ((strippedText p.text).length ≤ 5 ∧ p.images.length = 1) := by
      rintro ⟨h1, h2⟩
      rcases h with h3 | h3 <;> omega
    rw [hc]
    exact ⟨iff_of_false (fun he => PageType.noConfusion he) hnot, iff_of_true rfl hnot⟩
  · have hc : classify_page p = PageType.single_image := by rw [classify_page, if_neg h]
    have hand : (strippedText p.text).length ≤ 5 ∧ p.images.length = 1 := by
      push_neg at h
      omega
    rw [hc]
    exact ⟨iff_of_true rfl hand,
      iff_of_false (fun he => PageType.noConfusion he) (not_not_intro hand)⟩

/-- C3: for every page-image location whose key contains no path segment
equal to `"pages"`, inverting the page path fails with
`MalformedPathError`. -/
theorem invert_no_pages_errors (loc : S3Location) (sfx : Str)
    (h : pagesSeg ∉ pySplit '/' loc.S3ObjectName) :
    get_output_path_from_page_image_path loc sfx =
      Except.error SplitError.MalformedPathError := by
  simp only [get_output_path_from_page_image_path]
  rw [if_neg h]

/-- Witness for C3 at the key `"a/images/0.png"`, which has no `"pages"`
segment. -/
theorem invert_no_pages_errors_witness :
    pagesSeg ∉ pySplit '/' (str "a/images/0.png") ∧
    get_output_path_from_page_image_path ⟨str "b", str "a/images/0.png"⟩ [] =
      Except.error SplitError.MalformedPathError :=
  ⟨by decide, invert_no_pages_errors ⟨str "b", str "a/images/0.png"⟩ [] (by decide)⟩

/-- C6: `build_path` keeps the bucket verbatim and joins the non-null,
non-empty components of `[prefix, subpath, suffix]` with `'/'`, stripping
leading and trailing separators from the result; with a null subpath the
key simply has no subpath segment, as the spec-side `build_path_spec`
(written from the spec's words) makes explicit. -/
theorem build_path_matches_spec (b : Str) (pfx sub sfx : Option Str) :
    get_output_path b pfx sub sfx = build_path_spec b pfx sub sfx := by
  simp only [get_output_path, build_path_spec]
  rw [← comps_eq, ← pyJoin_eq_intercalate]
  rfl

/-- C10: the key of `build_path` is the verbatim `'/'`-join of its kept
components with exactly a run of leading and a run of trailing `'/'`
characters removed (so interior separators, including doubled ones produced
by a component ending in `'/'`, survive; the concrete conjunct shows
`"a/"` and `"b"` joining to `"a//b"`). -/
theorem build_path_strips_only_ends (b : Str) (pfx sub sfx : Option Str) :
    (∃ a d,
      pyJoin '/' (([pfx, sub, sfx].filterMap id).filter (fun s => !(s == []))) =
        List.replicate a '/' ++ (get_output_path b pfx sub sfx).S3ObjectName ++
          List.replicate d '/' ∧
      (get_output_path b pfx sub sfx).S3ObjectName.head? ≠ some '/' ∧
      (get_output_path b pfx sub sfx).S3ObjectName.getLast? ≠ some '/') ∧
    (get_output_path [] (some (str "a/")) (some (str "b")) none).S3ObjectName = str "a//b" := by
  constructor
  · obtain ⟨a, d, h1, h2, h3⟩ :=
      pyStrip_decomp '/'
        (pyJoin '/' (([pfx, sub, sfx].filterMap id).filter (fun s => !(s == []))))
    exact ⟨a, d, h1, h2, h3⟩
  · decide

/-- C4: for every multi-page (PDF) source decoding to N pages,
`split_upload_pages` returns exactly N Page results whose `page_number`
values are `0, 1, ..., N-1` in strictly increasing order. -/
theorem pdf_page_numbers (fitz_open : List Nat → List PDFPage)
    (hook : Option (S3Location → Str)) (o : S3InputObject) (h : is_pdf o = true) :
    (split_upload_pages fitz_open hook o).1.length = (fitz_open o.body).length ∧
    (split_upload_pages fitz_open hook o).1.map Page.number =
      List.range (fitz_open o.body).length := by
  refine ⟨split_pages_length_pdf fitz_open hook o h, ?_⟩
  have h1 : (split_upload_pages fitz_open hook o).1 =
      ((numberPages 0 (fitz_open o.body)).map (pageEntry o hook)).map Prod.fst := by
    simp [split_upload_pages, h]
  rw [h1, List.map_map, List.map_map]
  calc List.map ((Page.number ∘ Prod.fst) ∘ pageEntry o hook)
        (numberPages 0 (fitz_open o.body))
      = List.map Prod.fst (numberPages 0 (fitz_open o.body)) := rfl
    _ = List.range' 0 (fitz_open o.body).length := numberPages_map_fst 0 _
    _ = List.range (fitz_open o.body).length := (List.range_eq_range' _).symm

/-- Witness for C4 on a concrete two-page document. -/
theorem pdf_page_numbers_witness :
    is_pdf exObjPdf = true ∧
    ((split_upload_pages (fun _ => exDoc) none exObjPdf).1.length = 2 ∧
      (split_upload_pages (fun _ => exDoc) none exObjPdf).1.map Page.number =
        List.range 2) :=
  ⟨by decide, pdf_page_numbers (fun _ => exDoc) none exObjPdf (by decide)⟩

/-- C5: for every standalone (non-multi-page) source, `split_upload_pages`
returns exactly one Page result with `page_number = 0`, and the single
page-image write carries exactly the fetched source bytes. -/
theorem standalone_single_page (fitz_open : List Nat → List PDFPage)
    (hook : Option (S3Location → Str)) (o : S3InputObject) (h : is_pdf o = false) :
    (split_upload_pages fitz_open hook o).1.map Page.number = [0] ∧
    (evPageWrites (split_upload_pages fitz_open hook o).2).map Prod.snd = [o.body] := by
  cases hook with
  | none => exact ⟨by simp [split_upload_pages, h],
      by simp [split_upload_pages, h, evPageWrites, hookEvs]⟩
  | some f => exact ⟨by simp [split_upload_pages, h],
      by simp [split_upload_pages, h, evPageWrites, hookEvs]⟩

/-- Witness for C5 on a concrete JPEG source. -/
theorem standalone_single_page_witness :
    is_pdf exObjImg = false ∧
    ((split_upload_pages (fun _ => []) none exObjImg).1.map Page.number = [0] ∧
      (evPageWrites (split_upload_pages (fun _ => []) none exObjImg).2).map Prod.snd =
        [exObjImg.body]) :=
  ⟨by decide, standalone_single_page (fun _ => []) none exObjImg (by decide)⟩

/-- C7: in every run (both branches), whenever the trace performs a
page-image write at position `i`, a metadata write carrying the final
`page_count` (the number of returned Page results) occurred at an earlier
position `j`. -/
theorem metadata_before_page_writes (fitz_open : List Nat → List PDFPage)
    (hook : Option (S3Location → Str)) (o : S3InputObject) (i : Nat)
    (loc : S3Location) (b : List Nat)
    (h : (split_upload_pages fitz_open hook o).2.get? i = some (Ev.pageWrite loc b)) :
    ∃ j m, j < i ∧
      (split_upload_pages fitz_open hook o).2.get? j =
        some (Ev.metaWrite (save_metadata_loc o) m) ∧
      m.page_count = some (split_upload_pages fitz_open hook o).1.length := by
  obtain ⟨m, rest, htr, hpc⟩ := split_trace_head fitz_open hook o
  refine ⟨0, m, ?_, ?_, hpc⟩
  · cases i with
    | zero =>
      rw [htr, List.get?_cons_zero] at h
      simp at h
    | succ n => exact Nat.succ_pos n
  · rw [htr, List.get?_cons_zero]

/-- Witness for C7: in a concrete standalone run, the page write at trace
position 1 is preceded by the metadata write at position 0. -/
theorem metadata_before_page_writes_witness :
    (split_upload_pages (fun _ => []) none exObjImg).2.get? 1 =
      some (Ev.pageWrite (standalone_page_loc exObjImg) exObjImg.body) ∧
    ∃ j m, j < 1 ∧
      (split_upload_pages (fun _ => []) none exObjImg).2.get? j =
        some (Ev.metaWrite (save_metadata_loc exObjImg) m) ∧
      m.page_count = some (split_upload_pages (fun _ => []) none exObjImg).1.length :=
  ⟨by decide, metadata_before_page_writes (fun _ => []) none exObjImg 1
    (standalone_page_loc exObjImg) exObjImg.body (by decide)⟩

/-- A metadata write at the head of a trace is the head of its metadata-write
projection. -/
theorem evMetaWrites_cons_meta (loc : S3Location) (m : Metadata) (tr : List Ev) :
    evMetaWrites (Ev.metaWrite loc m :: tr) = (loc, m) :: evMetaWrites tr := rfl

/-- C8: per job the trace contains exactly one metadata write; the record it
carries is the initially created one mutated exactly once by setting
`page_count` to the number of Page results ultimately returned. -/
theorem metadata_written_once (fitz_open : List Nat → List PDFPage)
    (hook : Option (S3Location → Str)) (o : S3InputObject) :
    evMetaWrites (split_upload_pages fitz_open hook o).2 =
      [(save_metadata_loc o,
        { metadata_init o with
            page_count := some (split_upload_pages fitz_open hook o).1.length })] := by
  cases h : is_pdf o with
  | true =>
    have htr : (split_upload_pages fitz_open hook o).2 =
        Ev.metaWrite (save_metadata_loc o)
            { metadata_init o with page_count := some (fitz_open o.body).length } ::
          ((numberPages 0 (fitz_open o.body)).map (pageEntry o hook)).flatMap Prod.snd := by
      simp [split_upload_pages, h]
    rw [split_pages_length_pdf fitz_open hook o h, htr, evMetaWrites_cons_meta,
      evMetaWrites_pdf_items o hook 0 (fitz_open o.body)]
  | false =>
    have hlen : (split_upload_pages fitz_open hook o).1.length = 1 := by
      simp [split_upload_pages, h]
    rw [hlen]
    cases hook with
    | none => simp [split_upload_pages, h, evMetaWrites, hookEvs]
    | some f => simp [split_upload_pages, h, evMetaWrites, hookEvs]

/-- C9: for a standalone source the chosen extension is exactly the part of
the source key after its last `'.'`; for a key with no `'.'` the whole key
becomes the extension. -/
theorem standalone_image_ext (fitz_open : List Nat → List PDFPage)
    (hook : Option (S3Location → Str)) (o : S3InputObject) (h : is_pdf o = false) :
    (split_upload_pages fitz_open hook o).1.map Page.image_ext =
      [afterLastDot o.s3_document_file.S3ObjectName] ∧
    ('.' ∉ o.s3_document_file.S3ObjectName →
      afterLastDot o.s3_document_file.S3ObjectName = o.s3_document_file.S3ObjectName) := by
  constructor
  · have hbranch : (split_upload_pages fitz_open hook o).1.map Page.image_ext =
        [(pySplit '.' o.s3_document_file.S3ObjectName).getLastD []] := by
      simp [split_upload_pages, h]
    rw [hbranch, getLastD_pySplit]
    rfl
  · intro hnd
    unfold afterLastDot
    rw [List.takeWhile_eq_self_iff.mpr ?_, List.reverse_reverse]
    intro y hy
    have hmem : y ∈ o.s3_document_file.S3ObjectName := List.mem_reverse.mp hy
    have hne : y ≠ '.' := fun he => hnd (he ▸ hmem)
    simp [hne]

/-- Witness for C9: the key `"input/photo.jpg"` yields extension `"jpg"`. -/
theorem standalone_image_ext_witness :
    is_pdf exObjImg = false ∧
    ((split_upload_pages (fun _ => []) none exObjImg).1.map Page.image_ext =
      [afterLastDot exObjImg.s3_document_file.S3ObjectName] ∧
    ('.' ∉ exObjImg.s3_document_file.S3ObjectName →
      afterLastDot exObjImg.s3_document_file.S3ObjectName =
        exObjImg.s3_document_file.S3ObjectName)) :=
  ⟨by decide, standalone_image_ext (fun _ => []) none exObjImg (by decide)⟩

/-! ### C1: the path round-trip -/

theorem get_output_path_three (b p1 p2 p3 : Str) (hp1 : p1 ≠ []) (hp2 : p2 ≠ [])
    (hp3 : p3 ≠ []) :
    get_output_path b (some p1) (some p2) (some p3) =
      ⟨b, pyStrip '/' (p1 ++ '/' :: (p2 ++ '/' :: p3))⟩ := by
  simp [get_output_path, List.filterMap_cons, List.filter_cons, hp1, hp2, hp3, pyJoin]

theorem get_output_path_no_mid (b p1 p3 : Str) (mid : Option Str)
    (hmid : mid = none ∨ mid = some []) (hp1 : p1 ≠ []) (hp3 : p3 ≠ []) :
    get_output_path b (some p1) mid (some p3) =
      ⟨b, pyStrip '/' (p1 ++ '/' :: p3)⟩ := by
  rcases hmid with hm | hm <;> rw [hm] <;>
    simp [get_output_path, List.filterMap_cons, List.filter_cons, hp1, hp3, pyJoin]

theorem get_output_path_end_empty (b p1 : Str) (mid : Option Str)
    (hmid : mid = none ∨ mid = some []) (hp1 : p1 ≠ []) :
    get_output_path b (some p1) mid (some []) = ⟨b, pyStrip '/' p1⟩ := by
  rcases hmid with hm | hm <;> rw [hm] <;>
    simp [get_output_path, List.filterMap_cons, List.filter_cons, hp1, pyJoin]

theorem get_output_path_mid_end_empty (b p1 p2 : Str) (hp1 : p1 ≠ []) (hp2 : p2 ≠ []) :
    get_output_path b (some p1) (some p2) (some []) =
      ⟨b, pyStrip '/' (p1 ++ '/' :: p2)⟩ := by
  simp [get_output_path, List.filterMap_cons, List.filter_cons, hp1, hp2, pyJoin]

/-- Inverting any key of the shape
`front ++ "/pages/images/" ++ C` recovers `front` (stripped), provided
`front` starts with a non-separator, none of `front`'s segments is
`"pages"`, and `C` contains a `'.'` (as `"{page_number}.{ext}"` always
does). -/
theorem invert_page_path_general (bucket front C : Str)
    (hx : ∃ x t, front = x :: t ∧ (x == '/') = false)
    (hnp : ∀ s ∈ pySplit '/' front, (s == pagesSeg) = false)
    (hdot : '.' ∈ C) :
    get_output_path_from_page_image_path
      ⟨bucket, pyStrip '/' (front ++ '/' :: (pagesSeg ++ '/' :: (imagesSeg ++ '/' :: C)))⟩ []
      = Except.ok ⟨bucket, pyStrip '/' front⟩ := by
  obtain ⟨x, t, hft, hxc⟩ := hx
  have hkey1 : pyStrip '/' (front ++ '/' :: (pagesSeg ++ '/' :: (imagesSeg ++ '/' :: C))) =
      pyRStrip '/' (front ++ '/' :: (pagesSeg ++ '/' :: (imagesSeg ++ '/' :: C))) := by
    rw [hft, List.cons_append]
    exact pyStrip_cons_of_ne '/' x _ hxc
  have hassoc : front ++ '/' :: (pagesSeg ++ '/' :: (imagesSeg ++ '/' :: C)) =
      (front ++ '/' :: (pagesSeg ++ '/' :: imagesSeg)) ++ '/' :: C := by
    simp
  have hkey2 : pyRStrip '/' (front ++ '/' :: (pagesSeg ++ '/' :: (imagesSeg ++ '/' :: C))) =
      front ++ '/' :: (pagesSeg ++ '/' :: (imagesSeg ++ '/' :: pyRStrip '/' C)) := by
    rw [hassoc, pyRStrip_append '/' _ _ ⟨'.', List.mem_cons_of_mem _ hdot, by decide⟩]
    have hc : pyRStrip '/' ('/' :: C) = '/' :: pyRStrip '/' C := by
      rw [show ('/' : Char) :: C = ['/'] ++ C from rfl,
        pyRStrip_append '/' ['/'] C ⟨'.', hdot, by decide⟩]
      rfl
    rw [hc]
    simp
  have hparts : pySplit '/'
      (front ++ '/' :: (pagesSeg ++ '/' :: (imagesSeg ++ '/' :: pyRStrip '/' C))) =
      pySplit '/' front ++
        pagesSeg :: imagesSeg :: pySplit '/' (pyRStrip '/' C) := by
    rw [pySplit_append_cons, pySplit_append_cons, pySplit_append_cons,
      pySplit_of_not_mem '/' pagesSeg (by decide),
      pySplit_of_not_mem '/' imagesSeg (by decide)]
    simp
  have hkey := hkey1.trans hkey2
  simp only [get_output_path_from_page_image_path, hkey, hparts]
  rw [if_pos (List.mem_append_right _ (List.mem_cons_self _ _))]
  rw [takeWhile_middle _ (pySplit '/' front) _ pagesSeg
    (fun s hs => by rw [hnp s hs]; rfl) (by simp)]
  rw [pyJoin_pySplit]
  rw [hft]
  rfl

/-- C1 (amended): for every bucket, page number and extension, and every job
id (or absent job id) none of whose `'/'`-separated segments equals
`"pages"`, inverting the produced page-image location recovers the job's
base output path bit-for-bit.  The unamended claim, quantified over every
job id, fails for job ids containing a `"pages"` segment. -/
theorem invert_page_path_roundtrip (bucket : Str) (job : Option Str) (n : Nat) (ext : Str)
    (hjob : pagesSeg ∉ pySplit '/' (job.getD [])) :
    get_output_path_from_page_image_path
      (get_output_path bucket (some OUTPUT_PREFIX) job
        (some (str "pages/images/" ++ natStr n ++ '.' :: ext))) [] =
      Except.ok (get_output_path bucket (some OUTPUT_PREFIX) job (some [])) := by
  have hsfx : str "pages/images/" ++ natStr n ++ '.' :: ext =
      pagesSeg ++ '/' :: (imagesSeg ++ '/' :: (natStr n ++ '.' :: ext)) := rfl
  have hdot : '.' ∈ natStr n ++ '.' :: ext :=
    List.mem_append_right _ (List.mem_cons_self _ _)
  have hPne : OUTPUT_PREFIX ≠ [] := by decide
  have hsfxne : str "pages/images/" ++ natStr n ++ '.' :: ext ≠ [] :=
    List.cons_ne_nil _ _
  cases job with
  | none =>
    rw [get_output_path_no_mid bucket OUTPUT_PREFIX _ none (Or.inl rfl) hPne hsfxne,
      get_output_path_end_empty bucket OUTPUT_PREFIX none (Or.inl rfl) hPne, hsfx]
    exact invert_page_path_general bucket OUTPUT_PREFIX _
      ⟨'i', str "n_progress", rfl, by decide⟩ (by decide) hdot
  | some jb =>
    by_cases hjb : jb = []
    · rw [hjb, get_output_path_no_mid bucket OUTPUT_PREFIX _ (some []) (Or.inr rfl) hPne
        hsfxne, get_output_path_end_empty bucket OUTPUT_PREFIX (some []) (Or.inr rfl) hPne,
        hsfx]
      exact invert_page_path_general bucket OUTPUT_PREFIX _
        ⟨'i', str "n_progress", rfl, by decide⟩ (by decide) hdot
    · rw [get_output_path_three bucket OUTPUT_PREFIX jb _ hPne hjb hsfxne,
        get_output_path_mid_end_empty bucket OUTPUT_PREFIX jb hPne hjb, hsfx]
      have hassoc2 : OUTPUT_PREFIX ++ '/' ::
          (jb ++ '/' :: (pagesSeg ++ '/' :: (imagesSeg ++ '/' :: (natStr n ++ '.' :: ext)))) =
          (OUTPUT_PREFIX ++ '/' :: jb) ++ '/' ::
            (pagesSeg ++ '/' :: (imagesSeg ++ '/' :: (natStr n ++ '.' :: ext))) := by
        simp
      rw [hassoc2]
      refine invert_page_path_general bucket (OUTPUT_PREFIX ++ '/' :: jb) _
        ⟨'i', str "n_progress" ++ '/' :: jb, rfl, by decide⟩ ?_ hdot
      intro s hs
      rw [pySplit_append_cons] at hs
      rcases List.mem_append.mp hs with h1 | h2
      · rw [pySplit_of_not_mem '/' OUTPUT_PREFIX (by decide)] at h1
        simp at h1
        rw [h1]
        decide
      · exact beq_eq_false_iff_ne.mpr (fun he => hjob (he ▸ h2))

/-- Counterexample to C1 as literally stated: with job id `"pages"`, page 0
and extension `"png"`, inverting the produced page path returns the bare
default prefix instead of the job's base output path. -/
theorem invert_page_path_roundtrip_cex :
    get_output_path_from_page_image_path
      (get_output_path (str "b") (some OUTPUT_PREFIX) (some (str "pages"))
        (some (str "pages/images/" ++ natStr 0 ++ '.' :: str "png"))) [] ≠
      Except.ok (get_output_path (str "b") (some OUTPUT_PREFIX) (some (str "pages"))
        (some [])) := by decide

/-- Witness for C1 (amended) at job id `"job1"`, page 3, extension `"png"`. -/
theorem invert_page_path_roundtrip_witness :
    pagesSeg ∉ pySplit '/' ((some (str "job1") : Option Str).getD []) ∧
    get_output_path_from_page_image_path
      (get_output_path (str "b") (some OUTPUT_PREFIX) (some (str "job1"))
        (some (str "pages/images/" ++ natStr 3 ++ '.' :: str "png"))) [] =
      Except.ok (get_output_path (str "b") (some OUTPUT_PREFIX) (some (str "job1"))
        (some [])) :=
  ⟨by decide,
    invert_page_path_roundtrip (str "b") (some (str "job1")) 3 (str "png") (by decide)⟩
